import Mathlib

/-!
Verification of the `rip` port-process TUI (src/main.rs).

The scanner `get_port_processes` is embedded over its textual input: we model
the `lsof` standard output after line splitting and whitespace field splitting,
i.e. as a `List (List String)` of lines, each line a list of fields (Rust's
`split_whitespace` never produces empty fields, but none of the embedded logic
depends on that). The application state `App` and its operations
(`refresh_processes`, `next`, `previous`, `kill_selected`) are embedded with
the external effects (the scan result, the `kill` invocation outcome) passed
as explicit arguments. Machine integers (`u32` pids, `u16` ports, `usize`
indices) are `Nat` with the parse-time bounds made explicit; all `usize`
arithmetic in the source is guarded so `Nat` truncated subtraction coincides.
-/

/-! ## Parsing primitives (Rust `str::parse` for unsigned integers) -/

/-- Numeric value of a decimal digit character. -/
def digitVal (c : Char) : Nat := c.toNat - 48

/-- Fold a digit list into the `Nat` it denotes in base 10. -/
def natOfDigits (l : List Char) : Nat := l.foldl (fun acc c => acc * 10 + digitVal c) 0

/-- Parse a nonempty all-digit character list; `none` otherwise.
This is Rust's unsigned integer grammar minus the optional leading `+`. -/
def parseNatDigits (l : List Char) : Option Nat :=
  if !l.isEmpty && l.all Char.isDigit then some (natOfDigits l) else none

/-- Rust unsigned-integer parsing before the range check: an optional leading
`+` followed by at least one decimal digit. -/
def parseUnsigned (l : List Char) : Option Nat :=
  match l with
  | '+' :: rest => parseNatDigits rest
  | _ => parseNatDigits l

/-- Rust `str::parse::<u32>`: out-of-range values are a parse error. -/
def parseU32 (l : List Char) : Option Nat :=
  match parseUnsigned l with
  | some n => if n < 4294967296 then some n else none
  | none => none

/-- Rust `str::parse::<u16>`: out-of-range values are a parse error. -/
def parseU16 (l : List Char) : Option Nat :=
  match parseUnsigned l with
  | some n => if n < 65536 then some n else none
  | none => none

/-! ## Substring matching (Rust `str::contains`) -/

/-- Boolean list-prefix test, structurally recursive. -/
def listIsPrefix : List Char → List Char → Bool
  | [], _ => true
  | _ :: _, [] => false
  | a :: as, b :: bs => a == b && listIsPrefix as bs

/-- Boolean contiguous-sublist test: does `pat` occur inside the second list? -/
def listHasSub (pat : List Char) : List Char → Bool
  | [] => pat.isEmpty
  | c :: rest => listIsPrefix pat (c :: rest) || listHasSub pat rest

/-- Rust `s.contains(pat)` for string slices. -/
def strHasSub (s pat : String) : Bool := listHasSub pat.data s.data

/-! ## The scanner `get_port_processes` -/

/-- The record `PortProcess` from src/main.rs. -/
structure PortProcess where
  pid : Nat
  port : Nat
  protocol : String
  name : String
deriving DecidableEq, Repr

/-- `addr_field.rsplit(':').next()`: the suffix of the string after its last
`:` (the whole string when it has no `:`). -/
def lastColonSeg (l : List Char) : List Char :=
  (l.reverse.takeWhile (fun c => c ≠ ':')).reverse

/-- The port resolved from the address field (field 8):
`rsplit(':').next()` then `parse::<u16>().unwrap_or(0)`. -/
def resolvedPort (addr : String) : Nat :=
  (parseU16 (lastColonSeg addr.data)).getD 0

/-- The port the scanner resolves for a whole line (field 8 is the address). -/
def portOfLine (parts : List String) : Nat := resolvedPort (parts.getD 8 "")

/-- Protocol classification from fields 4 and 7 (`contains("TCP")` checked on
both fields first, then `contains("UDP")`, else `"???"`). -/
def protocolOf (parts : List String) : String :=
  if strHasSub (parts.getD 4 "") "TCP" || strHasSub (parts.getD 7 "") "TCP" then "TCP"
  else if strHasSub (parts.getD 4 "") "UDP" || strHasSub (parts.getD 7 "") "UDP" then "UDP"
  else "???"

/-- The pid the scanner parses from field 1, defaulted for convenience of
statements; inside the scan loop the parse success is checked explicitly. -/
def pidOf (parts : List String) : Nat := (parseU32 (parts.getD 1 "").data).getD 0

/-- The binding a well-formed line denotes (name, pid, protocol, port). -/
def parseBinding (parts : List String) : PortProcess :=
  { pid := pidOf parts, port := portOfLine parts,
    protocol := protocolOf parts, name := parts.getD 0 "" }

/-- The scanner's per-line loop from `get_port_processes`: skip short lines,
skip lines whose pid field does not parse, skip already-seen pids, then keep
the row exactly when its resolved port is positive, marking the pid seen.
The `HashSet` of seen pids is modelled as a `List Nat` used only through
membership. -/
def scanLinesAux (seen : List Nat) (acc : List PortProcess) :
    List (List String) → List PortProcess
  | [] => acc
  | parts :: rest =>
    if parts.length < 9 then scanLinesAux seen acc rest
    else
      match parseU32 (parts.getD 1 "").data with
      | none => scanLinesAux seen acc rest
      | some pid =>
        if pid ∈ seen then scanLinesAux seen acc rest
        else
          let port := portOfLine parts
          if 0 < port then
            scanLinesAux (pid :: seen)
              (acc ++ [{ pid := pid, port := port,
                         protocol := protocolOf parts, name := parts.getD 0 "" }]) rest
          else scanLinesAux seen acc rest

/-- The scanner's collection phase over the lines after the header. -/
def scanLines (lines : List (List String)) : List PortProcess :=
  scanLinesAux [] [] lines

/-- Stable insertion of a binding into a port-sorted list: `b` goes before the
first element whose port is not strictly smaller, so among equal ports the
inserted (earlier-input) element comes first. -/
def insertByPort (b : PortProcess) : List PortProcess → List PortProcess
  | [] => [b]
  | c :: rest => if c.port < b.port then c :: insertByPort b rest else b :: c :: rest

/-- `processes.sort_by_key(|p| p.port)`: Rust's `sort_by_key` is a stable
non-decreasing sort by the key; realised here as stable insertion sort. -/
def sortByPort : List PortProcess → List PortProcess
  | [] => []
  | b :: rest => insertByPort b (sortByPort rest)

/-- `get_port_processes` on its captured standard output, given as lines of
whitespace fields: drop the header line, run the collection loop, sort by
port. -/
def get_port_processes (lines : List (List String)) : List PortProcess :=
  sortByPort (scanLines (lines.drop 1))

/-! ## The process terminator `kill_process` -/

/-- A process exit status: its `success()` bit and its `Display` rendering. -/
structure ExitStatus where
  success : Bool
  display : String
deriving DecidableEq, Repr

/-- `kill_process`: propagate an invocation error, map a non-success exit
status to the formatted error, succeed otherwise. The `io::Error` is modelled
by its `Display` string (which is all `kill_selected` uses). -/
def kill_process (invocation : Except String ExitStatus) : Except String Unit :=
  match invocation with
  | .error e => .error e
  | .ok st =>
    if st.success then .ok ()
    else .error ("kill command failed with status: " ++ st.display)

/-! ## The application state and its operations -/

/-- The `App` struct: binding list, `ListState` selection, status message,
quit flag. -/
structure App where
  processes : List PortProcess
  list_state : Option Nat
  message : Option String
  should_quit : Bool
deriving DecidableEq, Repr

/-- `refresh_processes`, with the scan result passed explicitly: replace the
list, set the count message, then reconcile the selection (clear on empty,
clamp an out-of-range index to the last row, select row 0 when nothing was
selected). -/
def App.refresh_processes (a : App) (scanned : List PortProcess) : App :=
  let sel : Option Nat :=
    if scanned.isEmpty then none
    else
      match a.list_state with
      | some selected =>
        if scanned.length ≤ selected then some (scanned.length - 1) else some selected
      | none => some 0
  { a with processes := scanned,
           message := some ("Found " ++ toString scanned.length ++ " processes"),
           list_state := sel }

/-- `next`: no-op on an empty list, else advance the selection, wrapping from
the last row to the first. -/
def App.next (a : App) : App :=
  if a.processes.isEmpty then a
  else
    let i : Nat :=
      match a.list_state with
      | some i => if a.processes.length - 1 ≤ i then 0 else i + 1
      | none => 0
    { a with list_state := some i }

/-- `previous`: no-op on an empty list, else move the selection back, wrapping
from the first row to the last. -/
def App.previous (a : App) : App :=
  if a.processes.isEmpty then a
  else
    let i : Nat :=
      match a.list_state with
      | some i => if i = 0 then a.processes.length - 1 else i - 1
      | none => 0
    { a with list_state := some i }

/-- `kill_selected`, with the `kill` invocation outcome and the subsequent
scan result passed explicitly: when a selected row exists, terminate it; on
success set the confirmation message and refresh; on failure set the error
message and leave list and selection untouched. -/
def App.kill_selected (a : App) (invocation : Except String ExitStatus)
    (scanned : List PortProcess) : App :=
  match a.list_state with
  | none => a
  | some selected =>
    match a.processes[selected]? with
    | none => a
    | some process =>
      match kill_process invocation with
      | .ok _ =>
        App.refresh_processes
          { a with message := some ("Killed process " ++ process.name
              ++ " (PID: " ++ toString process.pid ++ ")") } scanned
      | .error e =>
        { a with message := some ("Failed to kill PID "
            ++ toString process.pid ++ ": " ++ e) }

/-! ## Claim-level auxiliary definitions -/

/-- A report line is well-formed when it has at least 9 whitespace fields, its
pid field parses as a `u32`, and its resolved port is non-zero. -/
def lineWF (parts : List String) : Prop :=
  9 ≤ parts.length ∧ (parseU32 (parts.getD 1 "").data).isSome = true ∧ portOfLine parts ≠ 0

instance (parts : List String) : Decidable (lineWF parts) := by
  unfold lineWF; infer_instance

/-- The first binding in a list bearing a given pid, if any. -/
def firstWithPid (p : Nat) : List PortProcess → Option PortProcess
  | [] => none
  | b :: rest => if b.pid = p then some b else firstWithPid p rest

/-- First-occurrence deduplication of bindings by pid, relative to a set of
already-seen pids; the reference shape the scan loop reduces to on
well-formed input. -/
def dedupAux (seen : List Nat) : List PortProcess → List PortProcess
  | [] => []
  | b :: rest =>
    if b.pid ∈ seen then dedupAux seen rest else b :: dedupAux (b.pid :: seen) rest

/-- Modelled from the spec: the selection-reconciliation rule of §4.3, stated
in the spec's own case split, used to compare against the selection computed
by `App.refresh_processes`. -/
def reconcileSpec (prior : Option Nat) (newCount : Nat) : Option Nat :=
  if newCount = 0 then none
  else
    match prior with
    | some i => if newCount ≤ i then some (newCount - 1) else some i
    | none => some 0

/-- The selection invariant: no selection exactly when the list is empty, and
any selected index is in range. -/
def AppInv (a : App) : Prop :=
  (a.list_state = none ↔ a.processes = []) ∧
  ∀ i, a.list_state = some i → i < a.processes.length

/-! ## Equation lemmas for the scan loop -/

theorem scanLinesAux_cons_short {parts : List String} (seen : List Nat)
    (acc : List PortProcess) (rest : List (List String)) (h : parts.length < 9) :
    scanLinesAux seen acc (parts :: rest) = scanLinesAux seen acc rest := by
  simp [scanLinesAux, h]

theorem scanLinesAux_cons_nopid {parts : List String} (seen : List Nat)
    (acc : List PortProcess) (rest : List (List String)) (h9 : ¬ parts.length < 9)
    (h : parseU32 (parts.getD 1 "").data = none) :
    scanLinesAux seen acc (parts :: rest) = scanLinesAux seen acc rest := by
  simp only [scanLinesAux]
  rw [if_neg h9, h]

theorem scanLinesAux_cons_seen {parts : List String} {pid : Nat} (seen : List Nat)
    (acc : List PortProcess) (rest : List (List String)) (h9 : ¬ parts.length < 9)
    (h : parseU32 (parts.getD 1 "").data = some pid) (hs : pid ∈ seen) :
    scanLinesAux seen acc (parts :: rest) = scanLinesAux seen acc rest := by
  simp only [scanLinesAux]
  rw [if_neg h9, h]
  simp only []
  rw [if_pos hs]

theorem scanLinesAux_cons_zero {parts : List String} {pid : Nat} (seen : List Nat)
    (acc : List PortProcess) (rest : List (List String)) (h9 : ¬ parts.length < 9)
    (h : parseU32 (parts.getD 1 "").data = some pid) (hs : pid ∉ seen)
    (hp : ¬ 0 < portOfLine parts) :
    scanLinesAux seen acc (parts :: rest) = scanLinesAux seen acc rest := by
  simp only [scanLinesAux]
  rw [if_neg h9, h]
  simp only []
  rw [if_neg hs, if_neg hp]

theorem scanLinesAux_cons_keep {parts : List String} {pid : Nat} (seen : List Nat)
    (acc : List PortProcess) (rest : List (List String)) (h9 : ¬ parts.length < 9)
    (h : parseU32 (parts.getD 1 "").data = some pid) (hs : pid ∉ seen)
    (hp : 0 < portOfLine parts) :
    scanLinesAux seen acc (parts :: rest) =
      scanLinesAux (pid :: seen)
        (acc ++ [{ pid := pid, port := portOfLine parts,
                   protocol := protocolOf parts, name := parts.getD 0 "" }]) rest := by
  simp only [scanLinesAux]
  rw [if_neg h9, h]
  simp only []
  rw [if_neg hs, if_pos hp]

/-! ## Stable insertion sort lemmas -/

theorem insertByPort_perm (b : PortProcess) (l : List PortProcess) :
    List.Perm (insertByPort b l) (b :: l) := by
  induction l with
  | nil => rfl
  | cons c rest ih =>
    by_cases h : c.port < b.port
    · simp only [insertByPort, if_pos h]
      exact (ih.cons c).trans (List.Perm.swap b c rest)
    · simp [insertByPort, if_neg h]

theorem mem_insertByPort {x b : PortProcess} {l : List PortProcess} :
    x ∈ insertByPort b l ↔ x = b ∨ x ∈ l := by
  rw [(insertByPort_perm b l).mem_iff, List.mem_cons]

theorem sortByPort_perm (l : List PortProcess) : List.Perm (sortByPort l) l := by
  induction l with
  | nil => rfl
  | cons b rest ih => exact (insertByPort_perm b (sortByPort rest)).trans (ih.cons b)

theorem pairwise_insertByPort {b : PortProcess} {l : List PortProcess}
    (h : List.Pairwise (fun x y : PortProcess => x.port ≤ y.port) l) :
    List.Pairwise (fun x y : PortProcess => x.port ≤ y.port) (insertByPort b l) := by
  induction l with
  | nil => simp [insertByPort]
  | cons c rest ih =>
    rcases List.pairwise_cons.mp h with ⟨hc, hrest⟩
    by_cases hcb : c.port < b.port
    · simp only [insertByPort, if_pos hcb]
      refine List.pairwise_cons.mpr ⟨?_, ih hrest⟩
      intro x hx
      rcases mem_insertByPort.mp hx with rfl | hx
      · exact Nat.le_of_lt hcb
      · exact hc x hx
    · simp only [insertByPort, if_neg hcb]
      refine List.pairwise_cons.mpr ⟨?_, h⟩
      intro x hx
      rcases List.mem_cons.mp hx with rfl | hx
      · exact Nat.le_of_not_lt hcb
      · exact Nat.le_trans (Nat.le_of_not_lt hcb) (hc x hx)

theorem sortByPort_pairwise (l : List PortProcess) :
    List.Pairwise (fun x y : PortProcess => x.port ≤ y.port) (sortByPort l) := by
  induction l with
  | nil => exact List.Pairwise.nil
  | cons b rest ih => exact pairwise_insertByPort ih

theorem filter_insertByPort (p : Nat) (b : PortProcess) (l : List PortProcess) :
    (insertByPort b l).filter (fun x => x.port == p) =
      (b :: l).filter (fun x => x.port == p) := by
  induction l with
  | nil => rfl
  | cons c rest ih =>
    by_cases hcb : c.port < b.port
    · simp only [insertByPort, if_pos hcb]
      by_cases hbp : b.port = p
      · have hcp : ¬ c.port = p := by omega
        simp [List.filter_cons, hbp, hcp, ih]
      · by_cases hcp : c.port = p <;> simp [List.filter_cons, hbp, hcp, ih]
    · simp [insertByPort, if_neg hcb]

theorem filter_sortByPort (p : Nat) (l : List PortProcess) :
    (sortByPort l).filter (fun x => x.port == p) = l.filter (fun x => x.port == p) := by
  induction l with
  | nil => rfl
  | cons b rest ih =>
    calc (insertByPort b (sortByPort rest)).filter (fun x => x.port == p)
        = (b :: sortByPort rest).filter (fun x => x.port == p) :=
          filter_insertByPort p b (sortByPort rest)
      _ = (b :: rest).filter (fun x => x.port == p) := by
          by_cases hbp : b.port = p <;> simp [List.filter_cons, hbp, ih]

/-! ## Deduplication lemmas -/

theorem dedupAux_sublist (seen : List Nat) (bs : List PortProcess) :
    (dedupAux seen bs).Sublist bs := by
  induction bs generalizing seen with
  | nil => simp [dedupAux]
  | cons b rest ih =>
    by_cases hb : b.pid ∈ seen
    · simp only [dedupAux, if_pos hb]
      exact (ih seen).trans (List.sublist_cons_self b rest)
    · simp only [dedupAux, if_neg hb]
      exact (ih (b.pid :: seen)).cons₂ b

theorem dedupAux_first {seen : List Nat} {bs : List PortProcess} :
    ∀ b ∈ dedupAux seen bs, b.pid ∉ seen ∧ firstWithPid b.pid bs = some b := by
  induction bs generalizing seen with
  | nil => simp [dedupAux]
  | cons c rest ih =>
    intro b hb
    by_cases hc : c.pid ∈ seen
    · rw [dedupAux, if_pos hc] at hb
      obtain ⟨hnot, hfirst⟩ := ih b hb
      have hne : c.pid ≠ b.pid := fun h => hnot (h ▸ hc)
      exact ⟨hnot, by rw [firstWithPid, if_neg hne, hfirst]⟩
    · rw [dedupAux, if_neg hc] at hb
      rcases List.mem_cons.mp hb with rfl | hb
      · exact ⟨hc, by rw [firstWithPid, if_pos rfl]⟩
      · obtain ⟨hnot, hfirst⟩ := ih b hb
        have hne : c.pid ≠ b.pid := fun h => hnot (List.mem_cons.mpr (Or.inl h.symm))
        have hns : b.pid ∉ seen := fun h => hnot (List.mem_cons.mpr (Or.inr h))
        exact ⟨hns, by rw [firstWithPid, if_neg hne, hfirst]⟩

theorem dedupAux_cover {seen : List Nat} {bs : List PortProcess} :
    ∀ c ∈ bs, c.pid ∉ seen → ∃ b ∈ dedupAux seen bs, b.pid = c.pid := by
  induction bs generalizing seen with
  | nil => simp
  | cons d rest ih =>
    intro c hc hcs
    by_cases hd : d.pid ∈ seen
    · rw [dedupAux, if_pos hd]
      rcases List.mem_cons.mp hc with rfl | hc
      · exact absurd hd hcs
      · exact ih c hc hcs
    · rw [dedupAux, if_neg hd]
      rcases List.mem_cons.mp hc with rfl | hc
      · exact ⟨c, List.mem_cons_self _ _, rfl⟩
      · by_cases hpid : c.pid = d.pid
        · exact ⟨d, List.mem_cons_self _ _, hpid.symm⟩
        · have : c.pid ∉ d.pid :: seen := by
            intro h
            rcases List.mem_cons.mp h with h | h
            · exact hpid h
            · exact hcs h
          obtain ⟨b, hb, hbp⟩ := ih c hc this
          exact ⟨b, List.mem_cons.mpr (Or.inr hb), hbp⟩

theorem dedupAux_nodup (seen : List Nat) (bs : List PortProcess) :
    ((dedupAux seen bs).map PortProcess.pid).Nodup := by
  induction bs generalizing seen with
  | nil => simp [dedupAux]
  | cons c rest ih =>
    by_cases hc : c.pid ∈ seen
    · rw [dedupAux, if_pos hc]; exact ih seen
    · rw [dedupAux, if_neg hc]
      simp only [List.map_cons, List.nodup_cons]
      refine ⟨?_, ih (c.pid :: seen)⟩
      intro hmem
      obtain ⟨b, hb, hbp⟩ := List.mem_map.mp hmem
      exact (dedupAux_first b hb).1 (hbp ▸ List.mem_cons_self _ _)

/-! ## The scan loop on well-formed input -/

theorem scanLinesAux_wf :
    ∀ (lines : List (List String)) (seen : List Nat) (acc : List PortProcess),
      (∀ parts ∈ lines, lineWF parts) →
      scanLinesAux seen acc lines = acc ++ dedupAux seen (lines.map parseBinding)
  | [], _, _, _ => by simp [scanLinesAux, dedupAux]
  | parts :: rest, seen, acc, hwf => by
    obtain ⟨h9, hpid, hport⟩ := hwf parts (List.mem_cons_self _ _)
    have hrest : ∀ p ∈ rest, lineWF p := fun p hp => hwf p (List.mem_cons_of_mem _ hp)
    obtain ⟨pid, hsome⟩ := Option.isSome_iff_exists.mp hpid
    have h9' : ¬ parts.length < 9 := by omega
    have hpo : 0 < portOfLine parts := Nat.pos_of_ne_zero hport
    have hpb : parseBinding parts =
        { pid := pid, port := portOfLine parts,
          protocol := protocolOf parts, name := parts.getD 0 "" } := by
      unfold parseBinding pidOf
      rw [hsome]
      rfl
    by_cases hs : pid ∈ seen
    · rw [scanLinesAux_cons_seen seen acc rest h9' hsome hs,
          scanLinesAux_wf rest seen acc hrest]
      simp only [List.map_cons]
      rw [dedupAux, if_pos (by rw [hpb]; exact hs)]
    · rw [scanLinesAux_cons_keep seen acc rest h9' hsome hs hpo,
          scanLinesAux_wf rest _ _ hrest]
      simp only [List.map_cons]
      rw [dedupAux, if_neg (by rw [hpb]; exact hs), hpb]
      simp

/-! ## Bounds carried by every scanned binding -/

theorem parseUnsigned_eq_some {l : List Char} {n : Nat} (h : parseNatDigits l = some n) :
    parseNatDigits l = some (natOfDigits l) := by
  unfold parseNatDigits at h ⊢
  by_cases hc : (!l.isEmpty && l.all Char.isDigit) = true
  · rw [if_pos hc]
  · rw [if_neg hc] at h; exact absurd h (by simp)

theorem parseU32_lt {l : List Char} {n : Nat} (h : parseU32 l = some n) :
    n < 4294967296 := by
  unfold parseU32 at h
  cases hu : parseUnsigned l with
  | none => rw [hu] at h; exact absurd h (by simp)
  | some m =>
    rw [hu] at h
    by_cases hm : m < 4294967296
    · simp [hm] at h
      omega
    · simp [hm] at h

theorem parseU16_lt {l : List Char} {n : Nat} (h : parseU16 l = some n) :
    n < 65536 := by
  unfold parseU16 at h
  cases hu : parseUnsigned l with
  | none => rw [hu] at h; exact absurd h (by simp)
  | some m =>
    rw [hu] at h
    by_cases hm : m < 65536
    · simp [hm] at h
      omega
    · simp [hm] at h

theorem resolvedPort_le (addr : String) : resolvedPort addr ≤ 65535 := by
  unfold resolvedPort
  cases h : parseU16 (lastColonSeg addr.data) with
  | none => simp
  | some n =>
    have := parseU16_lt h
    simp only [Option.getD_some]
    omega

/-- The well-typed-binding invariant preserved by the collection loop. -/
def BindingBounds (b : PortProcess) : Prop :=
  b.pid < 4294967296 ∧ 1 ≤ b.port ∧ b.port ≤ 65535

theorem scanLinesAux_bounds :
    ∀ (lines : List (List String)) (seen : List Nat) (acc : List PortProcess),
      (∀ b ∈ acc, BindingBounds b) →
      ∀ b ∈ scanLinesAux seen acc lines, BindingBounds b
  | [], _, _, hacc => by simpa [scanLinesAux] using hacc
  | parts :: rest, seen, acc, hacc => by
    intro b hb
    by_cases h9 : parts.length < 9
    · rw [scanLinesAux_cons_short seen acc rest h9] at hb
      exact scanLinesAux_bounds rest seen acc hacc b hb
    · cases hsome : parseU32 (parts.getD 1 "").data with
      | none =>
        rw [scanLinesAux_cons_nopid seen acc rest h9 hsome] at hb
        exact scanLinesAux_bounds rest seen acc hacc b hb
      | some pid =>
        by_cases hs : pid ∈ seen
        · rw [scanLinesAux_cons_seen seen acc rest h9 hsome hs] at hb
          exact scanLinesAux_bounds rest seen acc hacc b hb
        · by_cases hp : 0 < portOfLine parts
          · rw [scanLinesAux_cons_keep seen acc rest h9 hsome hs hp] at hb
            refine scanLinesAux_bounds rest _ _ ?_ b hb
            intro c hc
            rcases List.mem_append.mp hc with hc | hc
            · exact hacc c hc
            · rcases List.mem_singleton.mp hc with rfl
              refine ⟨parseU32_lt hsome, hp, ?_⟩
              exact resolvedPort_le (parts.getD 8 "")
          · rw [scanLinesAux_cons_zero seen acc rest h9 hsome hs hp] at hb
            exact scanLinesAux_bounds rest seen acc hacc b hb

/-! ## Zero-port rows are invisible to the scan -/

theorem scanLinesAux_zero_step {z : List String} (hz : portOfLine z = 0)
    (seen : List Nat) (acc : List PortProcess) (rest : List (List String)) :
    scanLinesAux seen acc (z :: rest) = scanLinesAux seen acc rest := by
  by_cases h9 : z.length < 9
  · exact scanLinesAux_cons_short seen acc rest h9
  · cases hsome : parseU32 (z.getD 1 "").data with
    | none => exact scanLinesAux_cons_nopid seen acc rest h9 hsome
    | some pid =>
      by_cases hs : pid ∈ seen
      · exact scanLinesAux_cons_seen seen acc rest h9 hsome hs
      · exact scanLinesAux_cons_zero seen acc rest h9 hsome hs (by omega)

theorem scanLinesAux_drop_zero {z : List String} (hz : portOfLine z = 0) :
    ∀ (before after : List (List String)) (seen : List Nat) (acc : List PortProcess),
      scanLinesAux seen acc (before ++ z :: after) = scanLinesAux seen acc (before ++ after)
  | [], after, seen, acc => by
    simpa using scanLinesAux_zero_step hz seen acc after
  | parts :: before, after, seen, acc => by
    simp only [List.cons_append]
    by_cases h9 : parts.length < 9
    · rw [scanLinesAux_cons_short seen acc _ h9, scanLinesAux_cons_short seen acc _ h9]
      exact scanLinesAux_drop_zero hz before after seen acc
    · cases hsome : parseU32 (parts.getD 1 "").data with
      | none =>
        rw [scanLinesAux_cons_nopid seen acc _ h9 hsome,
            scanLinesAux_cons_nopid seen acc _ h9 hsome]
        exact scanLinesAux_drop_zero hz before after seen acc
      | some pid =>
        by_cases hs : pid ∈ seen
        · rw [scanLinesAux_cons_seen seen acc _ h9 hsome hs,
              scanLinesAux_cons_seen seen acc _ h9 hsome hs]
          exact scanLinesAux_drop_zero hz before after seen acc
        · by_cases hp : 0 < portOfLine parts
          · rw [scanLinesAux_cons_keep seen acc _ h9 hsome hs hp,
                scanLinesAux_cons_keep seen acc _ h9 hsome hs hp]
            exact scanLinesAux_drop_zero hz before after _ _
          · rw [scanLinesAux_cons_zero seen acc _ h9 hsome hs hp,
                scanLinesAux_cons_zero seen acc _ h9 hsome hs hp]
            exact scanLinesAux_drop_zero hz before after seen acc

/-! ## Refresh establishes the selection invariant (helper) -/

theorem refresh_inv (a : App) (scanned : List PortProcess) :
    AppInv (a.refresh_processes scanned) := by
  unfold App.refresh_processes AppInv
  cases scanned with
  | nil => simp
  | cons b rest =>
    cases a.list_state with
    | none => simp
    | some i =>
      simp only [List.isEmpty_cons, Bool.false_eq_true, if_false, List.length_cons,
        Nat.add_sub_cancel]
      by_cases h : rest.length + 1 ≤ i
      · rw [if_pos h]
        refine ⟨by simp, ?_⟩
        intro j hj
        simp only [Option.some.injEq] at hj
        omega
      · rw [if_neg h]
        refine ⟨by simp, ?_⟩
        intro j hj
        simp only [Option.some.injEq] at hj
        omega

/-! ## Claim theorems about the application state -/

/-- C4: after a refresh, the selection is exactly the spec's reconcile rule:
`none` when the new list is empty, clamped to the last index when the prior
selection is out of range, `some 0` when there was no prior selection, and
unchanged otherwise. -/
theorem refresh_matches_reconcileSpec (a : App) (scanned : List PortProcess) :
    (a.refresh_processes scanned).list_state = reconcileSpec a.list_state scanned.length := by
  unfold App.refresh_processes reconcileSpec
  cases scanned with
  | nil => simp
  | cons b rest =>
    cases a.list_state with
    | none => simp
    | some i =>
      by_cases h : (b :: rest).length ≤ i
      · simp [h]
      · simp [h]

/-- C5: on a non-empty list with a valid selection, `next` and `previous`
step through the indices modulo the list length, wrapping in both directions;
on an empty list both are no-ops. -/
theorem nav_cycles (a : App) (i : Nat) (hsel : a.list_state = some i)
    (hi : i < a.processes.length) :
    a.next.list_state = some ((i + 1) % a.processes.length)
    ∧ a.previous.list_state = some ((i + a.processes.length - 1) % a.processes.length)
    ∧ (∀ b : App, b.processes = [] → b.next = b ∧ b.previous = b) := by
  refine ⟨?_, ?_, ?_⟩
  · obtain ⟨procs, sel, msg, q⟩ := a
    simp only at hsel hi ⊢
    subst hsel
    cases procs with
    | nil => simp at hi
    | cons c cs =>
      simp only [List.length_cons] at hi
      simp only [App.next, List.isEmpty_cons, Bool.false_eq_true, if_false,
        List.length_cons, Nat.add_sub_cancel]
      by_cases h : cs.length ≤ i
      · have h1 : i = cs.length := by omega
        subst h1
        simp [Nat.mod_self]
      · have h2 : (i + 1) % (cs.length + 1) = i + 1 := Nat.mod_eq_of_lt (by omega)
        simp [h, h2]
  · obtain ⟨procs, sel, msg, q⟩ := a
    simp only at hsel hi ⊢
    subst hsel
    cases procs with
    | nil => simp at hi
    | cons c cs =>
      simp only [List.length_cons] at hi
      simp only [App.previous, List.isEmpty_cons, Bool.false_eq_true, if_false,
        List.length_cons, Nat.add_sub_cancel]
      by_cases h : i = 0
      · subst h
        have h1 : cs.length % (cs.length + 1) = cs.length := Nat.mod_eq_of_lt (by omega)
        simp [h1]
      · have h2 : i + cs.length = (i - 1) + (cs.length + 1) := by omega
        have h3 : (i - 1) % (cs.length + 1) = i - 1 := Nat.mod_eq_of_lt (by omega)
        simp only [h, if_false]
        rw [show i + (cs.length + 1) - 1 = i + cs.length by omega, h2,
          Nat.add_mod_right, h3]
  · intro b hb
    constructor
    · unfold App.next
      rw [if_pos (by simp [hb])]
    · unfold App.previous
      rw [if_pos (by simp [hb])]

/-- C5 witness: on a two-element list selected at index 1, `next` wraps to
index 0 and `previous` moves to index 0. -/
theorem nav_cycles_witness :
    (App.next ⟨[⟨1, 80, "TCP", "a"⟩, ⟨2, 81, "TCP", "b"⟩], some 1, none, false⟩).list_state
      = some 0
    ∧ (App.previous ⟨[⟨1, 80, "TCP", "a"⟩, ⟨2, 81, "TCP", "b"⟩], some 1, none, false⟩).list_state
      = some 0 := by
  have h := nav_cycles ⟨[⟨1, 80, "TCP", "a"⟩, ⟨2, 81, "TCP", "b"⟩], some 1, none, false⟩
    1 rfl (by decide)
  exact ⟨by simpa using h.1, by simpa using h.2.1⟩

/-- C6 counterexample: on a two-element list with index 0 selected,
`previous` selects index 1 (the last row), not index 0 as the claim's literal
case split states. -/
theorem previous_at_zero_cex :
    (App.previous ⟨[⟨1, 80, "TCP", "a"⟩, ⟨2, 81, "TCP", "b"⟩], some 0, none, false⟩).list_state
      = some 1
    ∧ (some 1 : Option Nat) ≠ some 0 := by decide

/-- C6 (amended): `previous` is a no-op on an empty list; otherwise with no
selection it selects index 0, and with selection `i` it selects
`count - 1` when `i = 0` (wrapping from first to last) and `i - 1`
otherwise. -/
theorem previous_cases (a : App) :
    (a.processes = [] → a.previous = a)
    ∧ (a.processes ≠ [] → a.list_state = none → a.previous.list_state = some 0)
    ∧ (∀ i, a.processes ≠ [] → a.list_state = some i →
        a.previous.list_state =
          some (if i = 0 then a.processes.length - 1 else i - 1)) := by
  refine ⟨?_, ?_, ?_⟩
  · intro hb
    unfold App.previous
    rw [if_pos (by simp [hb])]
  · intro hne hsel
    unfold App.previous
    rw [if_neg (by simp [hne]), hsel]
  · intro i hne hsel
    unfold App.previous
    rw [if_neg (by simp [hne]), hsel]

/-- C6 witness: from index 2 of a three-element list, `previous` selects
index 1; from index 0 it selects the last index, 2. -/
theorem previous_cases_witness :
    (App.previous ⟨[⟨1, 80, "TCP", "a"⟩, ⟨2, 81, "TCP", "b"⟩, ⟨3, 82, "TCP", "c"⟩],
        some 2, none, false⟩).list_state = some 1
    ∧ (App.previous ⟨[⟨1, 80, "TCP", "a"⟩, ⟨2, 81, "TCP", "b"⟩, ⟨3, 82, "TCP", "c"⟩],
        some 0, none, false⟩).list_state = some 2 := by
  have h1 := (previous_cases ⟨[⟨1, 80, "TCP", "a"⟩, ⟨2, 81, "TCP", "b"⟩, ⟨3, 82, "TCP", "c"⟩],
    some 2, none, false⟩).2.2 2 (by decide) rfl
  have h2 := (previous_cases ⟨[⟨1, 80, "TCP", "a"⟩, ⟨2, 81, "TCP", "b"⟩, ⟨3, 82, "TCP", "c"⟩],
    some 0, none, false⟩).2.2 0 (by decide) rfl
  exact ⟨by simpa using h1, by simpa using h2⟩

/-- C2 counterexample: after a successful termination of the selected process
`srv` (PID 5) followed by a scan that finds nothing, the status message is the
scan count summary, which names neither the process name nor its pid — the
re-scan inside `kill_selected` overwrites the confirmation message, so the
message afterwards is not the confirmation the claim states. -/
theorem kill_success_message_cex :
    (App.kill_selected ⟨[⟨5, 80, "TCP", "srv"⟩], some 0, none, false⟩
        (.ok ⟨true, "exit status: 0"⟩) []).message = some "Found 0 processes"
    ∧ strHasSub "Found 0 processes" "srv" = false
    ∧ strHasSub "Found 0 processes" "5" = false := by decide

/-- C2 (amended): when a selected row exists and the termination call
succeeds, `kill_selected` sets the confirmation message naming the process
and pid and then performs a re-scan with selection reconciliation; the
re-scan overwrites the status message, so the message afterwards is the scan
count summary, not the confirmation. -/
theorem kill_success_refreshes (a : App) (i : Nat) (p : PortProcess) (st : ExitStatus)
    (scanned : List PortProcess) (hsel : a.list_state = some i)
    (hget : a.processes[i]? = some p) (hst : st.success = true) :
    a.kill_selected (.ok st) scanned =
      App.refresh_processes
        { a with message := some ("Killed process " ++ p.name
            ++ " (PID: " ++ toString p.pid ++ ")") } scanned
    ∧ (a.kill_selected (.ok st) scanned).message =
        some ("Found " ++ toString scanned.length ++ " processes") := by
  have hks : a.kill_selected (.ok st) scanned =
      App.refresh_processes
        { a with message := some ("Killed process " ++ p.name
            ++ " (PID: " ++ toString p.pid ++ ")") } scanned := by
    unfold App.kill_selected
    rw [hsel]
    simp only []
    rw [hget]
    simp only [kill_process, hst, if_true]
  exact ⟨hks, by rw [hks]; rfl⟩

/-- C2 witness: a concrete one-row app whose selected process is successfully
terminated; the confirmation is set and then refreshed away. -/
theorem kill_success_refreshes_witness :
    App.kill_selected ⟨[⟨5, 80, "TCP", "srv"⟩], some 0, none, false⟩
        (.ok ⟨true, "exit status: 0"⟩) []
      = App.refresh_processes
          ⟨[⟨5, 80, "TCP", "srv"⟩], some 0, some "Killed process srv (PID: 5)", false⟩ []
    ∧ (App.kill_selected ⟨[⟨5, 80, "TCP", "srv"⟩], some 0, none, false⟩
        (.ok ⟨true, "exit status: 0"⟩) []).message = some "Found 0 processes" := by
  have h := kill_success_refreshes ⟨[⟨5, 80, "TCP", "srv"⟩], some 0, none, false⟩
    0 ⟨5, 80, "TCP", "srv"⟩ ⟨true, "exit status: 0"⟩ [] rfl rfl rfl
  exact ⟨by simpa using h.1, by simpa using h.2⟩

/-- C3: when a selected row exists and the termination call fails — either
the `kill` invocation itself fails or it exits with a non-success status —
the binding list and the selection are exactly as before, and the status
message names the failing pid. -/
theorem kill_failure_preserves (a : App) (i : Nat) (p : PortProcess)
    (invocation : Except String ExitStatus) (scanned : List PortProcess)
    (hsel : a.list_state = some i) (hget : a.processes[i]? = some p)
    (hfail : (∃ e, invocation = .error e) ∨ ∃ st, invocation = .ok st ∧ st.success = false) :
    (a.kill_selected invocation scanned).processes = a.processes
    ∧ (a.kill_selected invocation scanned).list_state = a.list_state
    ∧ ∃ e, (a.kill_selected invocation scanned).message =
        some ("Failed to kill PID " ++ toString p.pid ++ ": " ++ e) := by
  have hks : ∀ msg, kill_process invocation = .error msg →
      a.kill_selected invocation scanned =
        { a with message := some ("Failed to kill PID "
            ++ toString p.pid ++ ": " ++ msg) } := by
    intro msg hmsg
    unfold App.kill_selected
    rw [hsel]
    simp only []
    rw [hget]
    simp only [hmsg]
  rcases hfail with ⟨e, rfl⟩ | ⟨st, rfl, hsucc⟩
  · rw [hks e rfl]
    exact ⟨rfl, rfl, e, rfl⟩
  · rw [hks ("kill command failed with status: " ++ st.display)
      (by simp only [kill_process, hsucc, Bool.false_eq_true, if_false])]
    exact ⟨rfl, rfl, "kill command failed with status: " ++ st.display, rfl⟩

/-- C3 witness: a concrete one-row app whose kill exits with status 1; the
list and selection are unchanged and the message names PID 5. -/
theorem kill_failure_preserves_witness :
    (App.kill_selected ⟨[⟨5, 80, "TCP", "srv"⟩], some 0, none, false⟩
        (.ok ⟨false, "exit status: 1"⟩) []).processes = [⟨5, 80, "TCP", "srv"⟩]
    ∧ (App.kill_selected ⟨[⟨5, 80, "TCP", "srv"⟩], some 0, none, false⟩
        (.ok ⟨false, "exit status: 1"⟩) []).list_state = some 0
    ∧ ∃ e, (App.kill_selected ⟨[⟨5, 80, "TCP", "srv"⟩], some 0, none, false⟩
        (.ok ⟨false, "exit status: 1"⟩) []).message =
          some ("Failed to kill PID 5: " ++ e) := by
  have h := kill_failure_preserves ⟨[⟨5, 80, "TCP", "srv"⟩], some 0, none, false⟩
    0 ⟨5, 80, "TCP", "srv"⟩ (.ok ⟨false, "exit status: 1"⟩) [] rfl rfl
    (Or.inr ⟨⟨false, "exit status: 1"⟩, rfl, rfl⟩)
  exact ⟨by simpa using h.1, by simpa using h.2.1, by simpa using h.2.2⟩

/-- C10: every application operation — refresh, next, previous, and
kill_selected (under any invocation outcome and any re-scan result) —
preserves the invariant that the selection is `none` exactly when the list is
empty and that any selected index is in range. -/
theorem app_ops_preserve_inv (a : App) (scanned : List PortProcess)
    (invocation : Except String ExitStatus) (h : AppInv a) :
    AppInv (a.refresh_processes scanned)
    ∧ AppInv a.next
    ∧ AppInv a.previous
    ∧ AppInv (a.kill_selected invocation scanned) := by
  obtain ⟨hiff, hlt⟩ := h
  refine ⟨refresh_inv a scanned, ?_, ?_, ?_⟩
  · by_cases hp : a.processes.isEmpty = true
    · have heq : a.next = a := by
        unfold App.next
        rw [if_pos hp]
      rw [heq]
      exact ⟨hiff, hlt⟩
    · have hne : a.processes ≠ [] := by
        intro hq
        rw [hq] at hp
        exact hp rfl
      have hlen : 0 < a.processes.length := List.length_pos.mpr hne
      cases hspl : a.list_state with
      | none =>
        have heq : a.next = { a with list_state := some 0 } := by
          unfold App.next
          rw [if_neg hp, hspl]
        rw [heq]
        refine ⟨by simp [hne], ?_⟩
        intro j hj
        simp at hj
        show j < a.processes.length
        omega
      | some i =>
        have heq : a.next =
            { a with list_state := some (if a.processes.length - 1 ≤ i then 0 else i + 1) } := by
          unfold App.next
          rw [if_neg hp, hspl]
        have hval : (if a.processes.length - 1 ≤ i then 0 else i + 1) < a.processes.length := by
          by_cases hc : a.processes.length - 1 ≤ i
          · rw [if_pos hc]; omega
          · rw [if_neg hc]; omega
        rw [heq]
        refine ⟨by simp [hne], ?_⟩
        intro j hj
        simp only [Option.some.injEq] at hj
        show j < a.processes.length
        omega
  · by_cases hp : a.processes.isEmpty = true
    · have heq : a.previous = a := by
        unfold App.previous
        rw [if_pos hp]
      rw [heq]
      exact ⟨hiff, hlt⟩
    · have hne : a.processes ≠ [] := by
        intro hq
        rw [hq] at hp
        exact hp rfl
      have hlen : 0 < a.processes.length := List.length_pos.mpr hne
      cases hspl : a.list_state with
      | none =>
        have heq : a.previous = { a with list_state := some 0 } := by
          unfold App.previous
          rw [if_neg hp, hspl]
        rw [heq]
        refine ⟨by simp [hne], ?_⟩
        intro j hj
        simp at hj
        show j < a.processes.length
        omega
      | some i =>
        have hilt : i < a.processes.length := hlt i hspl
        have heq : a.previous =
            { a with list_state := some (if i = 0 then a.processes.length - 1 else i - 1) } := by
          unfold App.previous
          rw [if_neg hp, hspl]
        have hval : (if i = 0 then a.processes.length - 1 else i - 1) < a.processes.length := by
          by_cases hc : i = 0
          · rw [if_pos hc]; omega
          · rw [if_neg hc]; omega
        rw [heq]
        refine ⟨by simp [hne], ?_⟩
        intro j hj
        simp only [Option.some.injEq] at hj
        show j < a.processes.length
        omega
  · cases hspl : a.list_state with
    | none =>
      have heq : a.kill_selected invocation scanned = a := by
        unfold App.kill_selected
        rw [hspl]
      rw [heq]
      exact ⟨hiff, hlt⟩
    | some i =>
      cases hget : a.processes[i]? with
      | none =>
        have heq : a.kill_selected invocation scanned = a := by
          unfold App.kill_selected
          rw [hspl]
          simp only []
          rw [hget]
        rw [heq]
        exact ⟨hiff, hlt⟩
      | some p =>
        cases hkp : kill_process invocation with
        | ok u =>
          have heq : a.kill_selected invocation scanned =
              App.refresh_processes
                { a with message := some ("Killed process " ++ p.name
                    ++ " (PID: " ++ toString p.pid ++ ")") } scanned := by
            unfold App.kill_selected
            rw [hspl]
            simp only []
            rw [hget]
            simp only [hkp]
          rw [heq]
          exact refresh_inv _ scanned
        | error e =>
          have heq : a.kill_selected invocation scanned =
              { a with message := some ("Failed to kill PID "
                  ++ toString p.pid ++ ": " ++ e) } := by
            unfold App.kill_selected
            rw [hspl]
            simp only []
            rw [hget]
            simp only [hkp]
          rw [heq]
          exact ⟨hiff, hlt⟩

/-- C10 witness: the invariant holds of a concrete one-row app and is
preserved by each of the four operations on it. -/
theorem app_ops_preserve_inv_witness :
    AppInv ((⟨[⟨5, 80, "TCP", "srv"⟩], some 0, none, false⟩ : App).refresh_processes [])
    ∧ AppInv (⟨[⟨5, 80, "TCP", "srv"⟩], some 0, none, false⟩ : App).next
    ∧ AppInv (⟨[⟨5, 80, "TCP", "srv"⟩], some 0, none, false⟩ : App).previous
    ∧ AppInv ((⟨[⟨5, 80, "TCP", "srv"⟩], some 0, none, false⟩ : App).kill_selected
        (.ok ⟨true, "exit status: 0"⟩) []) :=
  app_ops_preserve_inv ⟨[⟨5, 80, "TCP", "srv"⟩], some 0, none, false⟩ []
    (.ok ⟨true, "exit status: 0"⟩)
    ⟨by simp, by intro i h; simp at h; subst h; simp⟩

/-! ## Claim theorems about the scanner -/

/-- C7: a row whose resolved port is 0 is erased from the scan: it produces
no binding and does not mark its pid as seen, so the scan of any input
containing it equals the scan of the same input with that row removed — in
particular a later row with the same pid and a non-zero port still produces
its binding, and if no such later row exists the pid yields no binding. -/
theorem zero_port_row_invisible (hdr z : List String)
    (before after : List (List String)) (hz : portOfLine z = 0) :
    scanLines (before ++ z :: after) = scanLines (before ++ after)
    ∧ get_port_processes (hdr :: (before ++ z :: after))
        = get_port_processes (hdr :: (before ++ after)) := by
  have h := scanLinesAux_drop_zero hz before after [] []
  exact ⟨h, congrArg sortByPort h⟩

/-- C7 witness: a port-0 row for pid 7 does not block the later port-9000
row for the same pid; removing the zero row leaves the result unchanged, and
the pid-7 binding is present. -/
theorem zero_port_row_invisible_witness :
    portOfLine ["srv", "7", "u", "3u", "IPv4", "d", "0t0", "TCP", "*:0"] = 0
    ∧ get_port_processes
        [["h1", "h2", "h3", "h4", "h5", "h6", "h7", "h8", "h9"],
         ["srv", "7", "u", "3u", "IPv4", "d", "0t0", "TCP", "*:0"],
         ["srv", "7", "u", "4u", "IPv4", "d", "0t0", "TCP", "*:9000"]]
      = get_port_processes
        [["h1", "h2", "h3", "h4", "h5", "h6", "h7", "h8", "h9"],
         ["srv", "7", "u", "4u", "IPv4", "d", "0t0", "TCP", "*:9000"]]
    ∧ get_port_processes
        [["h1", "h2", "h3", "h4", "h5", "h6", "h7", "h8", "h9"],
         ["srv", "7", "u", "3u", "IPv4", "d", "0t0", "TCP", "*:0"],
         ["srv", "7", "u", "4u", "IPv4", "d", "0t0", "TCP", "*:9000"]]
      = [⟨7, 9000, "TCP", "srv"⟩] := by
  have h := zero_port_row_invisible
    ["h1", "h2", "h3", "h4", "h5", "h6", "h7", "h8", "h9"]
    ["srv", "7", "u", "3u", "IPv4", "d", "0t0", "TCP", "*:0"]
    [] [["srv", "7", "u", "4u", "IPv4", "d", "0t0", "TCP", "*:9000"]]
    (by decide)
  exact ⟨by decide, h.2, by decide⟩

/-- C9 counterexample: a line whose pid field is `"0"` parses as a valid u32
and is kept when its port is non-zero, so a scan result can contain a binding
whose pid is 0, which is not a positive integer. -/
theorem scan_pid_zero_cex :
    ∃ b ∈ get_port_processes
        [["h1", "h2", "h3", "h4", "h5", "h6", "h7", "h8", "h9"],
         ["kernel", "0", "u", "3u", "IPv4", "d", "0t0", "TCP", "*:80"]],
      ¬ 0 < b.pid :=
  ⟨⟨0, 80, "TCP", "kernel"⟩, by decide, by decide⟩

/-- C9 (amended): every binding in a scan result has a pid parsed from the
pid field as a u32 — a non-negative integer below 2^32, not necessarily
positive — and a port in [1, 65535]; rows with port 0 or an unparseable port
are discarded. -/
theorem scan_result_bounds (lines : List (List String)) :
    ∀ b ∈ get_port_processes lines,
      b.pid < 4294967296 ∧ 1 ≤ b.port ∧ b.port ≤ 65535 := by
  intro b hb
  have hmem : b ∈ scanLines (lines.drop 1) := (sortByPort_perm _).mem_iff.mp hb
  exact scanLinesAux_bounds (lines.drop 1) [] [] (by simp) b hmem

/-- C9 witness: the pid-7 port-443 binding of a concrete scan is in bounds. -/
theorem scan_result_bounds_witness :
    (⟨7, 443, "TCP", "db"⟩ : PortProcess) ∈ get_port_processes
        [["h1", "h2", "h3", "h4", "h5", "h6", "h7", "h8", "h9"],
         ["db", "7", "u", "4u", "IPv4", "d", "0t0", "TCP", "*:443"]]
    ∧ (7 : Nat) < 4294967296 ∧ (1 : Nat) ≤ 443 ∧ (443 : Nat) ≤ 65535 := by
  refine ⟨by decide, ?_⟩
  exact scan_result_bounds
    [["h1", "h2", "h3", "h4", "h5", "h6", "h7", "h8", "h9"],
     ["db", "7", "u", "4u", "IPv4", "d", "0t0", "TCP", "*:443"]]
    ⟨7, 443, "TCP", "db"⟩ (by decide)

/-- C8 counterexample: the address field `"8080"` contains no `:`, yet its
resolved port is 8080 — the whole field is parsed as the port — and the row
is kept, contradicting the claim that every colon-free address field resolves
to port 0 and is dropped. -/
theorem no_colon_port_cex :
    (∀ c ∈ "8080".data, c ≠ ':')
    ∧ resolvedPort "8080" = 8080
    ∧ get_port_processes
        [["h1", "h2", "h3", "h4", "h5", "h6", "h7", "h8", "h9"],
         ["srv", "5", "u", "3u", "IPv4", "d", "0t0", "TCP", "8080"]]
      = [⟨5, 8080, "TCP", "srv"⟩] :=
  ⟨by decide, by decide, by decide⟩

/-- Helper: `takeWhile` keeps a list all of whose elements satisfy the
predicate. -/
theorem takeWhile_all {p : Char → Bool} :
    ∀ l : List Char, (∀ c ∈ l, p c = true) → l.takeWhile p = l
  | [], _ => rfl
  | c :: rest, h => by
    rw [List.takeWhile_cons_of_pos (h c (List.mem_cons_self _ _)),
      takeWhile_all rest (fun d hd => h d (List.mem_cons_of_mem _ hd))]

/-- Helper: on a colon-free character list, the last-colon segment is the
whole list. -/
theorem lastColonSeg_no_colon {l : List Char} (h : ∀ c ∈ l, c ≠ ':') :
    lastColonSeg l = l := by
  unfold lastColonSeg
  rw [takeWhile_all l.reverse
    (fun c hc => by simpa using h c (List.mem_reverse.mp hc)), List.reverse_reverse]

/-- C8 (amended): the address field `127.0.0.1:8080` resolves to port 8080;
an address field containing no `:` is parsed in its entirety as the port, and
when that whole-field parse as an unsigned 16-bit integer fails the resolved
port is 0 and the row is dropped, as happens for `127.0.0.1`. -/
theorem address_port_resolution :
    resolvedPort "127.0.0.1:8080" = 8080
    ∧ (∀ s : String, (∀ c ∈ s.data, c ≠ ':') →
        resolvedPort s = (parseU16 s.data).getD 0)
    ∧ (∀ s : String, (∀ c ∈ s.data, c ≠ ':') → parseU16 s.data = none →
        resolvedPort s = 0)
    ∧ resolvedPort "127.0.0.1" = 0
    ∧ get_port_processes
        [["h1", "h2", "h3", "h4", "h5", "h6", "h7", "h8", "h9"],
         ["srv", "5", "u", "3u", "IPv4", "d", "0t0", "TCP", "127.0.0.1"]] = [] := by
  have hwhole : ∀ s : String, (∀ c ∈ s.data, c ≠ ':') →
      resolvedPort s = (parseU16 s.data).getD 0 := by
    intro s hs
    unfold resolvedPort
    rw [lastColonSeg_no_colon hs]
  refine ⟨by decide, hwhole, ?_, by decide, by decide⟩
  intro s hs hnone
  rw [hwhole s hs, hnone]
  rfl

/-- C8 witness: a colon-free address field is parsed whole — `"9090"`
resolves to port 9090 — and a colon-free field whose whole-field parse fails,
like `"localhost"`, resolves to port 0. -/
theorem address_port_resolution_witness :
    resolvedPort "9090" = (parseU16 "9090".data).getD 0
    ∧ resolvedPort "9090" = 9090
    ∧ resolvedPort "localhost" = 0 :=
  ⟨address_port_resolution.2.1 "9090" (by decide), by decide,
   address_port_resolution.2.2.1 "localhost" (by decide) (by decide)⟩

/-- C1: on input all of whose lines after the header are well-formed (≥ 9
fields, a pid that parses, a non-zero resolved port), the scan result has
distinct pids with exactly one binding per pid of the input — each binding
being the one parsed from the first line bearing its pid — and is sorted
non-decreasing by port; ties between equal ports keep the relative input
order: the collected pre-sort sequence is a sublist of the input's bindings
in input order, and the sort leaves the subsequence at each port value
unchanged (stability). -/
theorem scan_wf_dedup_sorted (hdr : List String) (lines : List (List String))
    (hwf : ∀ parts ∈ lines, lineWF parts) :
    ((get_port_processes (hdr :: lines)).map PortProcess.pid).Nodup
    ∧ (∀ b ∈ get_port_processes (hdr :: lines),
        firstWithPid b.pid (lines.map parseBinding) = some b)
    ∧ (∀ parts ∈ lines, ∃ b ∈ get_port_processes (hdr :: lines), b.pid = pidOf parts)
    ∧ List.Pairwise (fun x y : PortProcess => x.port ≤ y.port)
        (get_port_processes (hdr :: lines))
    ∧ (scanLines lines).Sublist (lines.map parseBinding)
    ∧ ∀ p : Nat, (get_port_processes (hdr :: lines)).filter (fun b => b.port == p)
        = (scanLines lines).filter (fun b => b.port == p) := by
  have hchar : scanLines lines = dedupAux [] (lines.map parseBinding) :=
    scanLinesAux_wf lines [] [] hwf
  have hgp : get_port_processes (hdr :: lines) = sortByPort (scanLines lines) := rfl
  refine ⟨?_, ?_, ?_, ?_, ?_, ?_⟩
  · rw [hgp, hchar]
    exact ((sortByPort_perm _).map PortProcess.pid).nodup_iff.mpr
      (dedupAux_nodup [] (lines.map parseBinding))
  · intro b hb
    rw [hgp] at hb
    have hmem : b ∈ scanLines lines := (sortByPort_perm _).mem_iff.mp hb
    rw [hchar] at hmem
    exact (dedupAux_first b hmem).2
  · intro parts hparts
    have hmm : parseBinding parts ∈ lines.map parseBinding :=
      List.mem_map_of_mem _ hparts
    obtain ⟨b, hb, hbp⟩ :=
      @dedupAux_cover [] (lines.map parseBinding) (parseBinding parts) hmm (by simp)
    refine ⟨b, ?_, hbp⟩
    rw [hgp, (sortByPort_perm (scanLines lines)).mem_iff, hchar]
    exact hb
  · rw [hgp]
    exact sortByPort_pairwise _
  · rw [hchar]
    exact dedupAux_sublist _ _
  · intro p
    rw [hgp]
    exact filter_sortByPort p _

/-- C1 witness: a concrete well-formed input — two rows for pid 7 (ports
9000 and 8080) and one for pid 3 (port 80) — whose scan keeps only the first
pid-7 row, yields distinct pids, and is sorted by port. -/
theorem scan_wf_dedup_sorted_witness :
    ((get_port_processes
        [["h1", "h2", "h3", "h4", "h5", "h6", "h7", "h8", "h9"],
         ["a", "7", "u", "3u", "IPv4", "d", "0t0", "TCP", "*:9000"],
         ["b", "3", "u", "3u", "IPv4", "d", "0t0", "TCP", "*:80"],
         ["a", "7", "u", "4u", "IPv4", "d", "0t0", "TCP", "*:8080"]]).map
      PortProcess.pid).Nodup
    ∧ List.Pairwise (fun x y : PortProcess => x.port ≤ y.port)
        (get_port_processes
          [["h1", "h2", "h3", "h4", "h5", "h6", "h7", "h8", "h9"],
           ["a", "7", "u", "3u", "IPv4", "d", "0t0", "TCP", "*:9000"],
           ["b", "3", "u", "3u", "IPv4", "d", "0t0", "TCP", "*:80"],
           ["a", "7", "u", "4u", "IPv4", "d", "0t0", "TCP", "*:8080"]])
    ∧ get_port_processes
        [["h1", "h2", "h3", "h4", "h5", "h6", "h7", "h8", "h9"],
         ["a", "7", "u", "3u", "IPv4", "d", "0t0", "TCP", "*:9000"],
         ["b", "3", "u", "3u", "IPv4", "d", "0t0", "TCP", "*:80"],
         ["a", "7", "u", "4u", "IPv4", "d", "0t0", "TCP", "*:8080"]]
      = [⟨3, 80, "TCP", "b"⟩, ⟨7, 9000, "TCP", "a"⟩] := by
  have h := scan_wf_dedup_sorted
    ["h1", "h2", "h3", "h4", "h5", "h6", "h7", "h8", "h9"]
    [["a", "7", "u", "3u", "IPv4", "d", "0t0", "TCP", "*:9000"],
     ["b", "3", "u", "3u", "IPv4", "d", "0t0", "TCP", "*:80"],
     ["a", "7", "u", "4u", "IPv4", "d", "0t0", "TCP", "*:8080"]]
    (by decide)
  exact ⟨h.1, h.2.2.2.1, by decide⟩
